import Mathlib

/-!
Verification of the ctracker allocation registry (src/ctracker.cpp and
src/ctracker.hpp).

The repository contains two variants of the tracker:

* the array variant (src/ctracker.cpp): records live in the first
  `RecordCount` slots of a fixed `Records[MAX_RECORDS]` array, kept sorted
  by address with an insertion-sort shift;
* the linked-list variant (src/ctracker.hpp, under `#if C_TRACKER`):
  records live in a singly linked list kept sorted by address; the
  `RecordCount` field is declared but never updated by any operation.

Machine integers (`size_t`, `uintptr_t`) are 64-bit and are modelled as
`Nat` with explicit wrap-around at `2 ^ 64` (`uadd`, `usub`) where the code
performs arithmetic that can overflow or underflow.  The `float`
computation of `FragmentationIndex` is modelled over `ℚ` with an explicit
binary32 rounding function `floatRound` (round to nearest, ties to even,
onto the IEEE-754 single-precision value grid) applied at every operation
of the expression `1.0f - (static_cast<float>(active_bytes) / span)`, in
C++ evaluation order: the integer-to-float conversions of `active_bytes`
and `span`, the float division, and the float subtraction each round.
Rounding matters here: `1.0f - q` rounds back up to exactly `1.0f`
whenever `0 < q ≤ 2 ^ (-25)`, so the index can reach 1.0 even with
positive record sizes.

The array variant's mutating operations always touch the array and
`RecordCount` together (ctracker.cpp lines 41-47 and 59-63), so its state
is represented by the list of its first `RecordCount` slots; the count is
the length of that list.  The one routine that can read the array outside
this live region, `FindLargestFreeBlock` (its loop bound `RecordCount - 1`
underflows when the registry is empty), is modelled separately over the
whole array with out-of-bounds reads mapped to `none` (undefined
behavior).  The linked-list variant's state keeps the `RecordCount` field
explicit, because that variant never writes to it.

The external allocator of spec §6 is a capability: `operator new` is
modelled by `trackedAllocate`, which takes the allocator's returned
address as an argument.
-/

namespace CTracker

/-- Word size of `size_t` / `uintptr_t` (64-bit build). -/
def W : Nat := 2 ^ 64

/-- Wrapping (`size_t` / `uintptr_t`) addition. -/
def uadd (a b : Nat) : Nat := (a + b) % W

/-- Wrapping (`size_t` / `uintptr_t`) subtraction. -/
def usub (a b : Nat) : Nat := (W + a - b) % W

/-- One `AllocationRecord`: the pair (address, size).  The `next` field of
the C struct is the linked-list wiring and is represented by list
structure. -/
abbrev Rec := Nat × Nat

/-- Addresses of a record list, in order. -/
def addrsOf (l : List Rec) : List Nat := l.map Prod.fst

/-- Mathematical (unwrapped) sum of the record sizes. -/
def sumSizes (l : List Rec) : Nat := (l.map Prod.snd).sum

/-- TotalAllocated (ctracker.cpp lines 70-79, ctracker.hpp lines 129-140):
`active_bytes += size` accumulated in a `size_t`, i.e. with wrap-around. -/
def totalAllocated (l : List Rec) : Nat :=
  l.foldl (fun acc r => uadd acc r.2) 0

/-- Capacity of the array variant (ctracker.cpp line 22). -/
def MAX_RECORDS : Nat := 10000

/-- The insertion-sort scan of `CmallocTrack` (ctracker.cpp lines 40-46)
viewed from the right end of the array: the argument list is the array
reversed, its head being `Records[RecordCount - 1]`.  While the examined
record's address exceeds the new address the record is shifted; otherwise
the new record is placed. -/
def insFromRight (a s : Nat) : List Rec → List Rec
  | [] => [(a, s)]
  | r :: rest => if r.1 > a then r :: insFromRight a s rest else (a, s) :: r :: rest

/-- Effect of the `CmallocTrack` insertion sort on the live region of the
array (ctracker.cpp lines 38-46). -/
def arrayInsert (a s : Nat) (l : List Rec) : List Rec :=
  (insFromRight a s l.reverse).reverse

/-- CmallocTrack, array variant (ctracker.cpp lines 33-49): insert only
when `RecordCount < MAX_RECORDS`, otherwise leave everything unchanged. -/
def cppCmallocTrack (a s : Nat) (l : List Rec) : List Rec :=
  if l.length < MAX_RECORDS then arrayInsert a s l else l

/-- Shared removal semantics of `CfreeTrack` in both variants
(ctracker.cpp lines 51-67, ctracker.hpp lines 96-126): scan for the first
record whose address equals `p`, unlink it and stop; if none matches, do
nothing. -/
def removeFirst (p : Nat) : List Rec → List Rec
  | [] => []
  | r :: rest => if r.1 = p then rest else r :: removeFirst p rest

/-- CfreeTrack, array variant (ctracker.cpp lines 51-67). -/
def cppCfreeTrack (p : Nat) (l : List Rec) : List Rec := removeFirst p l

/-- The record read as `Records[0]` / `RecordsHead`. -/
def headRec (l : List Rec) : Rec := l.head?.getD (0, 0)

/-- The record read as `Records[RecordCount - 1]` / `RecordsTail`. -/
def lastRec (l : List Rec) : Rec := l.getLast?.getD (0, 0)

/-- The `span = end - start` computation of `FragmentationIndex`
(ctracker.cpp lines 93-96, ctracker.hpp lines 154-157), in `uintptr_t` /
`size_t` arithmetic. -/
def spanOf (l : List Rec) : Nat :=
  usub (uadd (lastRec l).1 (lastRec l).2) (headRec l).1

/-- Round a rational to the nearest integer, ties to even — the IEEE-754
default rounding applied to a scaled significand. -/
def rne (x : ℚ) : ℤ :=
  if x - ⌊x⌋ < 1 / 2 then ⌊x⌋
  else if 1 / 2 < x - ⌊x⌋ then ⌊x⌋ + 1
  else if 2 ∣ ⌊x⌋ then ⌊x⌋ else ⌊x⌋ + 1

/-- Binary32 (IEEE-754 single precision) rounding of a non-negative
rational: round to nearest, ties to even, onto the grid of values
`m * 2 ^ (e - 23)` with a 24-bit significand and the exponent clamped at
the subnormal limit `-126`.  Negative inputs do not occur in this code
(sizes, spans and their quotients are non-negative) and are mapped to 0;
overflow to infinity starts near `2 ^ 128` and is unreachable from the
64-bit integers rounded here. -/
def floatRound (q : ℚ) : ℚ :=
  if q ≤ 0 then 0
  else (rne (q / 2 ^ (max (Int.log 2 q) (-126) - 23)) : ℚ)
    * 2 ^ (max (Int.log 2 q) (-126) - 23)

/-- FragmentationIndex (ctracker.cpp lines 85-109, ctracker.hpp lines
146-172).  Both variants: fewer than 2 records gives 0, zero span gives
0, otherwise the binary32 evaluation of
`1.0f - (static_cast<float>(active_bytes) / span)` where `active_bytes`
accumulates in `size_t`: the two integer operands are each rounded to
float, then the division rounds, then the subtraction from the exactly
representable `1.0f` rounds. -/
def fragmentationIndex (l : List Rec) : ℚ :=
  if l.length < 2 then 0
  else if spanOf l = 0 then 0
  else floatRound
    (1 - floatRound (floatRound (totalAllocated l : ℚ) / floatRound (spanOf l : ℚ)))

/-- The gap loop of `FindLargestFreeBlock`, array variant (ctracker.cpp
lines 116-126).  `arr` is the whole `Records` array, `i` the loop index,
`largest` the accumulator and `n` the number of iterations left.  The gap
`next_start - current_end` is computed in `size_t` with no clamping.  A
read outside the array is undefined behavior and yields `none`. -/
def gapLoop (arr : List Rec) : Nat → Nat → Nat → Option Nat
  | _, largest, 0 => some largest
  | i, largest, n + 1 =>
    match arr.get? i, arr.get? (i + 1) with
    | some c, some nx =>
        gapLoop arr (i + 1) (max largest (usub nx.1 (uadd c.1 c.2))) n
    | _, _ => none

/-- FindLargestFreeBlock, array variant (ctracker.cpp lines 111-128): the
loop runs for `RecordCount - 1` iterations, where the subtraction is in
`size_t` and underflows to `2 ^ 64 - 1` when the registry is empty. -/
def cppFindLargestFreeBlock (arr : List Rec) (count : Nat) : Option Nat :=
  gapLoop arr 0 0 (usub count 1)

/-- State of the linked-list variant (ctracker.hpp): the list of records
reachable from `RecordsHead` (head and tail are derived), plus the
`RecordCount` field, which that variant declares but never updates. -/
structure Registry where
  records : List Rec
  count : Nat

/-- The walk of `CmallocTrack`, linked-list variant (ctracker.hpp lines
82-92): advance while the next record's address is below the new address,
then splice the new record in. -/
def llInsertAfter (a s : Nat) : List Rec → List Rec
  | [] => [(a, s)]
  | r :: rest => if r.1 < a then r :: llInsertAfter a s rest else (a, s) :: r :: rest

/-- CmallocTrack, linked-list variant (ctracker.hpp lines 53-94): prepend
when the list is empty or the head's address exceeds the new address,
otherwise keep the head and walk; the record-node allocation is modelled
as succeeding. -/
def llInsert (a s : Nat) (l : List Rec) : List Rec :=
  match l with
  | [] => [(a, s)]
  | r :: rest => if r.1 > a then (a, s) :: r :: rest else r :: llInsertAfter a s rest

/-- CmallocTrack, linked-list variant: note that `RecordCount` is not
touched (ctracker.hpp lines 53-94 never mention it). -/
def hppCmallocTrack (a s : Nat) (st : Registry) : Registry :=
  { records := llInsert a s st.records, count := st.count }

/-- CfreeTrack, linked-list variant (ctracker.hpp lines 96-126): unlink
the first matching record; `RecordCount` is again not touched. -/
def hppCfreeTrack (p : Nat) (st : Registry) : Registry :=
  { records := removeFirst p st.records, count := st.count }

/-- An operation against the registry: a tracked allocation (address,
size) or a tracked release (address). -/
inductive Op where
  | malloc (a s : Nat)
  | free (a : Nat)

/-- One operation, array variant. -/
def cppStep (l : List Rec) : Op → List Rec
  | Op.malloc a s => cppCmallocTrack a s l
  | Op.free p => cppCfreeTrack p l

/-- Run of operations, array variant. -/
def cppRunFrom (l : List Rec) : List Op → List Rec
  | [] => l
  | op :: rest => cppRunFrom (cppStep l op) rest

/-- Run from the initial (empty, zero-count) registry, array variant. -/
def cppRun (ops : List Op) : List Rec := cppRunFrom [] ops

/-- One operation, linked-list variant. -/
def hppStep (st : Registry) : Op → Registry
  | Op.malloc a s => hppCmallocTrack a s st
  | Op.free p => hppCfreeTrack p st

/-- Run of operations, linked-list variant. -/
def hppRunFrom (st : Registry) : List Op → Registry
  | [] => st
  | op :: rest => hppRunFrom (hppStep st op) rest

/-- Initial linked-list registry: empty list, `RecordCount = 0`. -/
def hppInit : Registry := ⟨[], 0⟩

/-- Run from the initial registry, linked-list variant. -/
def hppRun (ops : List Op) : Registry := hppRunFrom hppInit ops

/-- The allocated address is fresh: no live record carries it. -/
def freshB (a : Nat) (l : List Rec) : Bool := l.all fun r => r.1 != a

/-- Validity of an operation sequence against the array variant: every
tracked allocation uses an address not currently live (spec §4.1 insert
precondition / invariant I3). -/
def cppValidFrom (l : List Rec) : List Op → Bool
  | [] => true
  | Op.malloc a s :: rest => freshB a l && cppValidFrom (cppStep l (Op.malloc a s)) rest
  | Op.free p :: rest => cppValidFrom (cppStep l (Op.free p)) rest

/-- Validity of an operation sequence against the linked-list variant. -/
def hppValidFrom (st : Registry) : List Op → Bool
  | [] => true
  | Op.malloc a s :: rest => freshB a st.records && hppValidFrom (hppStep st (Op.malloc a s)) rest
  | Op.free p :: rest => hppValidFrom (hppStep st (Op.free p)) rest

/-- Specification-level live-record list in insertion order: an insert
prepends the record (subject to the array variant's capacity), a release
deletes the first record with the matching address.  This is the "records
inserted and not yet removed" of spec P3. -/
def specStepC (l : List Rec) : Op → List Rec
  | Op.malloc a s => if l.length < MAX_RECORDS then (a, s) :: l else l
  | Op.free p => removeFirst p l

/-- Run of the capped specification-level live list. -/
def specRunFromC (l : List Rec) : List Op → List Rec
  | [] => l
  | op :: rest => specRunFromC (specStepC l op) rest

/-- Capped specification-level live list from empty. -/
def specRunC (ops : List Op) : List Rec := specRunFromC [] ops

/-- Specification-level live list for the linked-list variant, which has
no capacity limit. -/
def specStepH (l : List Rec) : Op → List Rec
  | Op.malloc a s => (a, s) :: l
  | Op.free p => removeFirst p l

/-- Run of the uncapped specification-level live list. -/
def specRunFromH (l : List Rec) : List Op → List Rec
  | [] => l
  | op :: rest => specRunFromH (specStepH l op) rest

/-- Uncapped specification-level live list from empty. -/
def specRunH (ops : List Op) : List Rec := specRunFromH [] ops

/-- Operator new (ctracker.cpp lines 139-152): the external allocator's
result `addr` is an input (spec §6 capability).  Result: the returned
address, the re-entrancy flag after the call, and the registry after the
call.  When the flag is already set the registry is untouched and the flag
is left as it was; otherwise the flag is set, the allocation is recorded,
and the flag is reset to false. -/
def trackedAllocate (locked : Bool) (l : List Rec) (addr size : Nat) :
    Nat × Bool × List Rec :=
  if locked then (addr, locked, l)
  else (addr, false, cppCmallocTrack addr size l)

/-- Strict address order between records (invariant I1). -/
abbrev RecLt (r r' : Rec) : Prop := r.1 < r'.1

/-- Descending address order, used for the array scanned from the right. -/
abbrev RecGt (r r' : Rec) : Prop := r'.1 < r.1

/-- Consecutive records do not overlap: each record ends at or before the
next one starts (spec §3, inherited from the allocator). -/
abbrev NonOverlap (l : List Rec) : Prop :=
  l.Chain' fun x y => x.1 + x.2 ≤ y.1

/-- All record ranges fit in the address space without wrap-around. -/
abbrev Bounded (l : List Rec) : Prop := ∀ r ∈ l, r.1 + r.2 < W

/-- The freshly zero-initialized `Records` array of the process-wide
singleton (static storage, ctracker.cpp lines 23 and 131-135). -/
def zeroArray : List Rec := List.replicate MAX_RECORDS (0, 0)

/-- The whole `Records` array when exactly one record (4096, 16) is live:
remaining slots still zero-initialized. -/
def oneRecArray : List Rec :=
  [(4096, 16)] ++ List.replicate (MAX_RECORDS - 1) (0, 0)

/-- A full registry: 10000 records at addresses 0..9999, size 1 each. -/
def capState : List Rec := (List.range MAX_RECORDS).map fun i => (i, 1)

/-- The whole `Records` array when the live region holds the two
overlapping records (100, 50) and (120, 10): remaining slots still
zero-initialized. -/
def overlapArray : List Rec :=
  [(100, 50), (120, 10)] ++ List.replicate (MAX_RECORDS - 2) (0, 0)

/- ### Basic arithmetic lemmas -/

lemma W_pos : 0 < W := by norm_num [W]

lemma uadd_lt (a b : Nat) : uadd a b < W := Nat.mod_lt _ W_pos

lemma uadd_eq_add {a b : Nat} (h : a + b < W) : uadd a b = a + b :=
  Nat.mod_eq_of_lt h

lemma usub_eq_sub {a b : Nat} (hba : b ≤ a) (ha : a < W) : usub a b = a - b := by
  unfold usub
  have h1 : W + a - b = W + (a - b) := by omega
  rw [h1, Nat.add_mod_left]
  exact Nat.mod_eq_of_lt (by omega)

lemma totalAllocated_aux (l : List Rec) :
    ∀ acc : Nat, acc < W →
      l.foldl (fun acc r => uadd acc r.2) acc = (acc + sumSizes l) % W := by
  induction l with
  | nil =>
    intro acc hacc
    simp [sumSizes, Nat.mod_eq_of_lt hacc]
  | cons r rest ih =>
    intro acc hacc
    have h1 : uadd acc r.2 < W := uadd_lt _ _
    calc (r :: rest).foldl (fun acc r => uadd acc r.2) acc
        = rest.foldl (fun acc r => uadd acc r.2) (uadd acc r.2) := rfl
      _ = (uadd acc r.2 + sumSizes rest) % W := ih _ h1
      _ = (acc + r.2 + sumSizes rest) % W := by
          unfold uadd
          rw [Nat.mod_add_mod]
      _ = (acc + sumSizes (r :: rest)) % W := by
          simp [sumSizes]
          ring_nf

/-- TotalAllocated is the mathematical sum modulo `2 ^ 64`. -/
lemma totalAllocated_eq (l : List Rec) : totalAllocated l = sumSizes l % W := by
  have := totalAllocated_aux l 0 W_pos
  simpa [totalAllocated] using this

/- ### Quick structural lemmas -/

lemma freshB_iff {a : Nat} {l : List Rec} :
    freshB a l = true ↔ ∀ r ∈ l, r.1 ≠ a := by
  simp [freshB, List.all_eq_true]

lemma not_mem_addrs {a : Nat} {l : List Rec} :
    a ∉ addrsOf l ↔ ∀ r ∈ l, r.1 ≠ a := by
  simp only [addrsOf, List.mem_map, not_exists, not_and]

lemma removeFirst_sublist (p : Nat) :
    ∀ l : List Rec, List.Sublist (removeFirst p l) l := by
  intro l
  induction l with
  | nil => exact List.Sublist.refl _
  | cons r rest ih =>
    by_cases h : r.1 = p
    · simp [removeFirst, h]
    · simpa [removeFirst, h] using ih.cons₂ r

lemma removeFirst_id {p : Nat} : ∀ {l : List Rec}, p ∉ addrsOf l → removeFirst p l = l := by
  intro l
  induction l with
  | nil => intro _; rfl
  | cons r rest ih =>
    intro hp
    rw [not_mem_addrs] at hp
    have h1 : r.1 ≠ p := hp r (List.mem_cons_self r rest)
    have h2 : p ∉ addrsOf rest := by
      rw [not_mem_addrs]
      intro x hx
      exact hp x (List.mem_cons_of_mem _ hx)
    simp [removeFirst, h1, ih h2]

/-- The gap loop aborts with undefined behavior (`none`) whenever its
iteration budget drives the index past the end of the array. -/
lemma gapLoop_oob (arr : List Rec) :
    ∀ (n i g : Nat), arr.length ≤ i + n → 1 ≤ n → gapLoop arr i g n = none := by
  intro n
  induction n with
  | zero =>
    intro i g _ h1
    omega
  | succ n ih =>
    intro i g hlen _
    have hgap : gapLoop arr i g (n + 1)
        = match arr.get? i, arr.get? (i + 1) with
          | some c, some nx =>
              gapLoop arr (i + 1) (max g (usub nx.1 (uadd c.1 c.2))) n
          | _, _ => none := rfl
    cases h2 : arr.get? (i + 1) with
    | none =>
      cases h1 : arr.get? i <;> rw [hgap, h1, h2]
    | some nx =>
      have hi1 : i + 1 < arr.length := by
        by_contra hge
        rw [List.get?_eq_none.mpr (by omega)] at h2
        exact Option.noConfusion h2
      have hi0 : i < arr.length := by omega
      rw [hgap, List.get?_eq_get hi0, h2]
      exact ih (i + 1) _ (by omega) (by omega)

/- ### Claim theorems: C1, C3, C9 -/

/-- Claim C1 (code_bug evidence): on the array variant, a registry holding
the overlapping records (address 100, size 50) and (address 120, size 10)
makes `FindLargestFreeBlock` compute the pair gap `120 - 150` in `size_t`,
so it returns the wrap-around value `2 ^ 64 - 30` instead of a clamped
non-negative gap. -/
theorem c1_overflow_eval :
    cppFindLargestFreeBlock overlapArray 2 = some (2 ^ 64 - 30) := by
  decide

/-- Claim C3 (code_bug evidence): in the linked-list variant a single
tracked allocation stores one record but leaves `RecordCount` at 0, so the
count does not equal the number of records currently stored. -/
theorem c3_count_eval :
    (hppRun [Op.malloc 100 4]).count = 0 ∧
      (hppRun [Op.malloc 100 4]).records.length = 1 := by
  constructor <;> rfl

/-- Claim C9: `operator new` returns the allocator's address in every
branch; when the re-entrancy flag is already set the registry is left
unchanged (and the flag keeps its value); when the flag was clear, the
allocation is recorded and the flag ends false. -/
theorem c9_trackedAllocate (locked : Bool) (l : List Rec) (addr size : Nat) :
    (trackedAllocate locked l addr size).1 = addr ∧
      (locked = true → (trackedAllocate locked l addr size).2.2 = l ∧
        (trackedAllocate locked l addr size).2.1 = locked) ∧
      (locked = false → (trackedAllocate locked l addr size).2.1 = false ∧
        (trackedAllocate locked l addr size).2.2 = cppCmallocTrack addr size l) := by
  cases locked <;> simp [trackedAllocate]

/-- Claim C6 (code_bug evidence): with 0 or 1 records,
`FragmentationIndex` does return 0 and `FindLargestFreeBlock` with exactly
1 record does return 0; but on the empty registry the array variant's loop
bound `RecordCount - 1` underflows to `2 ^ 64 - 1` and the loop reads past
the end of the `Records` array — undefined behavior (`none`) instead of
the claimed 0. -/
theorem c6_degenerate_eval :
    fragmentationIndex [] = 0 ∧ fragmentationIndex [(4096, 16)] = 0 ∧
      cppFindLargestFreeBlock oneRecArray 1 = some 0 ∧
      cppFindLargestFreeBlock zeroArray 0 = none := by
  refine ⟨rfl, rfl, rfl, ?_⟩
  rw [cppFindLargestFreeBlock, show usub 0 1 = W - 1 by norm_num [usub, W]]
  exact gapLoop_oob _ _ _ _ (by norm_num [zeroArray, MAX_RECORDS, W]) (by norm_num [W])

/-- Claim C7: releasing an address that is not currently present leaves
both variants' registries — record sequence, count and total — completely
unchanged. -/
theorem c7_unknown_release (l : List Rec) (c p : Nat) (hp : p ∉ addrsOf l) :
    cppCfreeTrack p l = l ∧
      hppCfreeTrack p ⟨l, c⟩ = (⟨l, c⟩ : Registry) ∧
      totalAllocated (cppCfreeTrack p l) = totalAllocated l ∧
      (cppCfreeTrack p l).length = l.length := by
  have h := removeFirst_id hp
  exact ⟨h, by simp [hppCfreeTrack, h], by rw [cppCfreeTrack, h], by rw [cppCfreeTrack, h]⟩

/-- Witness for C7 at a concrete registry and absent address. -/
theorem c7_witness :
    cppCfreeTrack 9 [(3, 4)] = [(3, 4)] ∧
      hppCfreeTrack 9 ⟨[(3, 4)], 1⟩ = (⟨[(3, 4)], 1⟩ : Registry) :=
  ⟨(c7_unknown_release [(3, 4)] 1 9 (by decide)).1,
   (c7_unknown_release [(3, 4)] 1 9 (by decide)).2.1⟩

/-- Length of the insertion-sort result. -/
lemma insFromRight_length (a s : Nat) :
    ∀ rl : List Rec, (insFromRight a s rl).length = rl.length + 1 := by
  intro rl
  induction rl with
  | nil => rfl
  | cons r rest ih => by_cases hc : r.1 > a <;> simp [insFromRight, hc, ih]

lemma arrayInsert_length (a s : Nat) (l : List Rec) :
    (arrayInsert a s l).length = l.length + 1 := by
  simp [arrayInsert, insFromRight_length]

/-- The array variant's record count never exceeds the capacity. -/
lemma cppRunFrom_length_le :
    ∀ (ops : List Op) (l : List Rec), l.length ≤ MAX_RECORDS →
      (cppRunFrom l ops).length ≤ MAX_RECORDS := by
  intro ops
  induction ops with
  | nil =>
    intro l h
    exact h
  | cons op rest ih =>
    intro l h
    have hstep : (cppStep l op).length ≤ MAX_RECORDS := by
      cases op with
      | malloc a s =>
        by_cases hc : l.length < MAX_RECORDS
        · simp only [cppStep, cppCmallocTrack, if_pos hc, arrayInsert_length]
          omega
        · simpa [cppStep, cppCmallocTrack, hc] using h
      | free p =>
        exact le_trans (removeFirst_sublist p l).length_le h
    exact ih _ hstep

/-- Claim C10: the array variant's registry never holds more than
`MAX_RECORDS = 10000` records, and an insert arriving when the count
equals 10000 leaves the registry completely unchanged. -/
theorem c10_capacity :
    (∀ ops : List Op, (cppRun ops).length ≤ MAX_RECORDS) ∧
      ∀ (l : List Rec) (a s : Nat), l.length = MAX_RECORDS →
        cppCmallocTrack a s l = l := by
  constructor
  · intro ops
    exact cppRunFrom_length_le ops [] (by simp [MAX_RECORDS])
  · intro l a s hlen
    simp [cppCmallocTrack, hlen]

/-- Witness for C10: inserting into a completely full registry changes
nothing. -/
theorem c10_witness : cppCmallocTrack 20000 4 capState = capState :=
  c10_capacity.2 capState 20000 4 (by simp [capState])

/- ### Order preservation (invariant I1) -/

lemma mem_insFromRight {a s : Nat} {x : Rec} :
    ∀ {rl : List Rec}, x ∈ insFromRight a s rl → x = (a, s) ∨ x ∈ rl := by
  intro rl
  induction rl with
  | nil =>
    intro hx
    simpa [insFromRight] using hx
  | cons r rest ih =>
    intro hx
    by_cases hc : r.1 > a
    · simp only [insFromRight, if_pos hc, List.mem_cons] at hx
      rcases hx with hx | hx
      · exact Or.inr (List.mem_cons.mpr (Or.inl hx))
      · rcases ih hx with h | h
        · exact Or.inl h
        · exact Or.inr (List.mem_cons.mpr (Or.inr h))
    · simp only [insFromRight, if_neg hc, List.mem_cons] at hx
      rcases hx with hx | hx
      · exact Or.inl hx
      · exact Or.inr (List.mem_cons.mpr hx)

lemma insFromRight_pairwise {a s : Nat} :
    ∀ {rl : List Rec}, rl.Pairwise RecGt → (∀ r ∈ rl, r.1 ≠ a) →
      (insFromRight a s rl).Pairwise RecGt := by
  intro rl
  induction rl with
  | nil =>
    intro _ _
    simp [insFromRight]
  | cons r rest ih =>
    intro hp hf
    rw [List.pairwise_cons] at hp
    by_cases hc : r.1 > a
    · simp only [insFromRight, if_pos hc]
      rw [List.pairwise_cons]
      refine ⟨?_, ih hp.2 fun x hx => hf x (List.mem_cons_of_mem _ hx)⟩
      intro x hx
      rcases mem_insFromRight hx with rfl | hx
      · exact hc
      · exact hp.1 x hx
    · have hra : r.1 < a :=
        lt_of_le_of_ne (not_lt.mp hc) (hf r (List.mem_cons_self _ _))
      simp only [insFromRight, if_neg hc]
      rw [List.pairwise_cons]
      refine ⟨?_, List.pairwise_cons.mpr hp⟩
      intro x hx
      rcases List.mem_cons.mp hx with rfl | hx
      · exact hra
      · exact lt_trans (hp.1 x hx) hra

lemma arrayInsert_pairwise {a s : Nat} {l : List Rec}
    (hp : l.Pairwise RecLt) (hf : ∀ r ∈ l, r.1 ≠ a) :
    (arrayInsert a s l).Pairwise RecLt := by
  have h1 : l.reverse.Pairwise RecGt := by
    rw [List.pairwise_reverse]
    exact hp
  have h2 : ∀ r ∈ l.reverse, r.1 ≠ a := by
    intro r hr
    exact hf r (List.mem_reverse.mp hr)
  rw [arrayInsert, List.pairwise_reverse]
  exact insFromRight_pairwise h1 h2

lemma cppCmallocTrack_pairwise {a s : Nat} {l : List Rec}
    (hp : l.Pairwise RecLt) (hf : ∀ r ∈ l, r.1 ≠ a) :
    (cppCmallocTrack a s l).Pairwise RecLt := by
  rw [cppCmallocTrack]
  split
  · exact arrayInsert_pairwise hp hf
  · exact hp

lemma mem_llInsertAfter {a s : Nat} {x : Rec} :
    ∀ {l : List Rec}, x ∈ llInsertAfter a s l → x = (a, s) ∨ x ∈ l := by
  intro l
  induction l with
  | nil =>
    intro hx
    simpa [llInsertAfter] using hx
  | cons r rest ih =>
    intro hx
    by_cases hc : r.1 < a
    · simp only [llInsertAfter, if_pos hc, List.mem_cons] at hx
      rcases hx with hx | hx
      · exact Or.inr (List.mem_cons.mpr (Or.inl hx))
      · rcases ih hx with h | h
        · exact Or.inl h
        · exact Or.inr (List.mem_cons.mpr (Or.inr h))
    · simp only [llInsertAfter, if_neg hc, List.mem_cons] at hx
      rcases hx with hx | hx
      · exact Or.inl hx
      · exact Or.inr (List.mem_cons.mpr hx)

lemma llInsertAfter_pairwise {a s : Nat} :
    ∀ {l : List Rec}, l.Pairwise RecLt → (∀ r ∈ l, r.1 ≠ a) →
      (llInsertAfter a s l).Pairwise RecLt := by
  intro l
  induction l with
  | nil =>
    intro _ _
    simp [llInsertAfter]
  | cons r rest ih =>
    intro hp hf
    rw [List.pairwise_cons] at hp
    by_cases hc : r.1 < a
    · simp only [llInsertAfter, if_pos hc]
      rw [List.pairwise_cons]
      refine ⟨?_, ih hp.2 fun x hx => hf x (List.mem_cons_of_mem _ hx)⟩
      intro x hx
      rcases mem_llInsertAfter hx with rfl | hx
      · exact hc
      · exact hp.1 x hx
    · have hra : a < r.1 :=
        lt_of_le_of_ne (not_lt.mp hc) (Ne.symm (hf r (List.mem_cons_self _ _)))
      simp only [llInsertAfter, if_neg hc]
      rw [List.pairwise_cons]
      refine ⟨?_, List.pairwise_cons.mpr hp⟩
      intro x hx
      rcases List.mem_cons.mp hx with rfl | hx
      · exact hra
      · exact lt_trans hra (hp.1 x hx)

lemma llInsert_pairwise {a s : Nat} {l : List Rec}
    (hp : l.Pairwise RecLt) (hf : ∀ r ∈ l, r.1 ≠ a) :
    (llInsert a s l).Pairwise RecLt := by
  cases l with
  | nil => simp [llInsert]
  | cons r rest =>
    rw [List.pairwise_cons] at hp
    by_cases hc : r.1 > a
    · simp only [llInsert, if_pos hc]
      rw [List.pairwise_cons]
      refine ⟨?_, List.pairwise_cons.mpr hp⟩
      intro y hy
      rcases List.mem_cons.mp hy with rfl | hy
      · exact hc
      · exact lt_trans hc (hp.1 y hy)
    · have hra : r.1 < a :=
        lt_of_le_of_ne (not_lt.mp hc) (hf r (List.mem_cons_self _ _))
      simp only [llInsert, if_neg hc]
      rw [List.pairwise_cons]
      constructor
      · intro y hy
        rcases mem_llInsertAfter hy with rfl | hy
        · exact hra
        · exact hp.1 y hy
      · exact llInsertAfter_pairwise hp.2 fun x hx => hf x (List.mem_cons_of_mem _ hx)

lemma cppRunFrom_pairwise :
    ∀ (ops : List Op) (l : List Rec), l.Pairwise RecLt →
      cppValidFrom l ops = true → (cppRunFrom l ops).Pairwise RecLt := by
  intro ops
  induction ops with
  | nil =>
    intro l hp _
    exact hp
  | cons op rest ih =>
    intro l hp hv
    cases op with
    | malloc a s =>
      simp only [cppValidFrom, Bool.and_eq_true] at hv
      obtain ⟨hf, hvrest⟩ := hv
      exact ih _ (cppCmallocTrack_pairwise hp (freshB_iff.mp hf)) hvrest
    | free p =>
      simp only [cppValidFrom] at hv
      exact ih _ (List.Pairwise.sublist (removeFirst_sublist p l) hp) hv

lemma hppRunFrom_pairwise :
    ∀ (ops : List Op) (st : Registry), st.records.Pairwise RecLt →
      hppValidFrom st ops = true → (hppRunFrom st ops).records.Pairwise RecLt := by
  intro ops
  induction ops with
  | nil =>
    intro st hp _
    exact hp
  | cons op rest ih =>
    intro st hp hv
    cases op with
    | malloc a s =>
      simp only [hppValidFrom, Bool.and_eq_true] at hv
      obtain ⟨hf, hvrest⟩ := hv
      exact ih _ (llInsert_pairwise hp (freshB_iff.mp hf)) hvrest
    | free p =>
      simp only [hppValidFrom] at hv
      exact ih _ (List.Pairwise.sublist (removeFirst_sublist p st.records) hp) hv

/-- Claim C2: after any valid sequence of tracked allocations and
releases (all allocated addresses fresh among live records), a full scan
of either variant's registry yields strictly ascending addresses. -/
theorem c2_order_invariant (ops : List Op)
    (hc : cppValidFrom [] ops = true) (hh : hppValidFrom hppInit ops = true) :
    (cppRun ops).Pairwise RecLt ∧ (hppRun ops).records.Pairwise RecLt :=
  ⟨cppRunFrom_pairwise ops [] List.Pairwise.nil hc,
   hppRunFrom_pairwise ops hppInit List.Pairwise.nil hh⟩

/-- Witness for C2 on a concrete operation sequence. -/
theorem c2_witness :
    cppValidFrom [] [Op.malloc 300 4, Op.malloc 100 8, Op.free 300, Op.malloc 200 2] = true ∧
      hppValidFrom hppInit [Op.malloc 300 4, Op.malloc 100 8, Op.free 300, Op.malloc 200 2] = true ∧
      ((cppRun [Op.malloc 300 4, Op.malloc 100 8, Op.free 300, Op.malloc 200 2]).Pairwise RecLt ∧
        (hppRun [Op.malloc 300 4, Op.malloc 100 8, Op.free 300, Op.malloc 200 2]).records.Pairwise RecLt) :=
  ⟨by decide, by decide, c2_order_invariant _ (by decide) (by decide)⟩

/-- Claim C4 (amended): in the array variant, inserting a fresh address
into a strictly ordered registry that is below capacity increments the
record count by exactly 1, and the result is strictly ordered (I1), has
count equal to the stored records (I2, count is the stored list's length)
with each address occurring at most once (I3). -/
theorem c4_insert_post (l : List Rec) (a s : Nat)
    (hp : l.Pairwise RecLt) (hf : a ∉ addrsOf l) (hlen : l.length < MAX_RECORDS) :
    (cppCmallocTrack a s l).length = l.length + 1 ∧
      (cppCmallocTrack a s l).Pairwise RecLt ∧
      (addrsOf (cppCmallocTrack a s l)).Nodup := by
  have hf' := not_mem_addrs.mp hf
  have hp' : (cppCmallocTrack a s l).Pairwise RecLt :=
    cppCmallocTrack_pairwise hp hf'
  refine ⟨by simp [cppCmallocTrack, hlen, arrayInsert_length], hp', ?_⟩
  have hmap : (addrsOf (cppCmallocTrack a s l)).Pairwise (· < ·) :=
    List.Pairwise.map Prod.fst (fun x y h => h) hp'
  exact hmap.imp fun h => Nat.ne_of_lt h

/-- Witness for C4 at a concrete registry and fresh address. -/
theorem c4_witness :
    (cppCmallocTrack 50 2 [(100, 4)]).length = ([((100:Nat), (4:Nat))] : List Rec).length + 1 ∧
      (cppCmallocTrack 50 2 [(100, 4)]).Pairwise RecLt ∧
      (addrsOf (cppCmallocTrack 50 2 [(100, 4)])).Nodup :=
  c4_insert_post [(100, 4)] 50 2 (by simp) (by decide) (by norm_num [MAX_RECORDS])

/-- Claim C4 counterexample: at capacity the claim fails — the registry
`capState` holds `MAX_RECORDS` records, the address 20000 is fresh, yet
`CmallocTrack` leaves the count at 10000 instead of incrementing it. -/
theorem c4_counterexample :
    capState.length = MAX_RECORDS ∧ 20000 ∉ addrsOf capState ∧
      (cppCmallocTrack 20000 5 capState).length = capState.length := by
  have hlen : capState.length = MAX_RECORDS := by simp [capState]
  refine ⟨hlen, ?_, ?_⟩
  · rw [not_mem_addrs]
    intro r hr
    simp only [capState, List.mem_map, List.mem_range, MAX_RECORDS] at hr
    obtain ⟨i, hi, rfl⟩ := hr
    simp only [ne_eq]
    omega
  · have : cppCmallocTrack 20000 5 capState = capState := by
      simp [cppCmallocTrack, hlen]
    rw [this]

/- ### Fragmentation index (claim C5) -/

/-- For a chain of non-overlapping records the sizes fit inside the span
from the first record's address to the last record's end. -/
lemma sumSizes_le_span :
    ∀ l : List Rec, l ≠ [] → NonOverlap l →
      sumSizes l + (headRec l).1 ≤ (lastRec l).1 + (lastRec l).2
  | [], h, _ => absurd rfl h
  | [r], _, _ => by
      simp [sumSizes, headRec, lastRec]
      omega
  | r0 :: r1 :: rest, _, hno => by
      have hstep : r0.1 + r0.2 ≤ r1.1 := (List.chain'_cons.mp hno).1
      have htail : NonOverlap (r1 :: rest) := (List.chain'_cons.mp hno).2
      have ih := sumSizes_le_span (r1 :: rest) (by simp) htail
      have hhead1 : (headRec (r1 :: rest)).1 = r1.1 := rfl
      rw [hhead1] at ih
      have hlast : lastRec (r0 :: r1 :: rest) = lastRec (r1 :: rest) := by
        simp [lastRec, List.getLast?_cons_cons]
      have hsum : sumSizes (r0 :: r1 :: rest) = r0.2 + sumSizes (r1 :: rest) := by
        simp [sumSizes]
      have hhead : (headRec (r0 :: r1 :: rest)).1 = r0.1 := rfl
      rw [hlast, hsum, hhead]
      omega

/- ### Binary32 rounding lemmas -/

lemma rne_ge_floor (x : ℚ) : ⌊x⌋ ≤ rne x := by
  unfold rne
  split_ifs <;> omega

lemma rne_le_floor_add_one (x : ℚ) : rne x ≤ ⌊x⌋ + 1 := by
  unfold rne
  split_ifs <;> omega

lemma rne_mono {x y : ℚ} (h : x ≤ y) : rne x ≤ rne y := by
  rcases lt_or_eq_of_le (Int.floor_mono h) with hf | hf
  · calc rne x ≤ ⌊x⌋ + 1 := rne_le_floor_add_one x
      _ ≤ ⌊y⌋ := by omega
      _ ≤ rne y := rne_ge_floor y
  · have hxy : x - (⌊x⌋ : ℚ) ≤ y - (⌊x⌋ : ℚ) := by linarith
    unfold rne
    rw [← hf]
    split_ifs <;> first | omega | linarith

lemma rne_intCast (n : ℤ) : rne (n : ℚ) = n := by
  unfold rne
  rw [Int.floor_intCast]
  norm_num

lemma floatRound_zero : floatRound 0 = 0 := by
  simp [floatRound]

lemma floatRound_nonneg (q : ℚ) : 0 ≤ floatRound q := by
  unfold floatRound
  split_ifs with hq
  · exact le_refl 0
  · push_neg at hq
    have hs : (0:ℚ) < 2 ^ (max (Int.log 2 q) (-126) - 23) := zpow_pos (by norm_num) _
    have h0 : 0 ≤ rne (q / 2 ^ (max (Int.log 2 q) (-126) - 23)) := by
      have hge := rne_ge_floor (q / 2 ^ (max (Int.log 2 q) (-126) - 23))
      have hfl : 0 ≤ ⌊q / 2 ^ (max (Int.log 2 q) (-126) - 23)⌋ :=
        Int.floor_nonneg.mpr (le_of_lt (div_pos hq hs))
      omega
    have h0' : (0:ℚ) ≤ (rne (q / 2 ^ (max (Int.log 2 q) (-126) - 23)) : ℚ) := by
      exact_mod_cast h0
    exact mul_nonneg h0' (le_of_lt hs)

lemma floatRound_one : floatRound 1 = 1 := by
  have hm : max (Int.log 2 (1:ℚ)) (-126) - 23 = -23 := by
    rw [Int.log_one_right]
    norm_num
  unfold floatRound
  rw [if_neg (by norm_num), hm]
  have h1 : (1:ℚ) / 2 ^ (-23:ℤ) = ((2 ^ 23 : ℤ) : ℚ) := by
    rw [zpow_neg, one_div, inv_inv]
    norm_num
  rw [h1, rne_intCast]
  norm_num

lemma floatRound_le_zpow {q : ℚ} (hq : 0 < q) :
    floatRound q ≤ 2 ^ (max (Int.log 2 q) (-126) + 1) := by
  have hle : Int.log 2 q ≤ max (Int.log 2 q) (-126) := le_max_left _ _
  have hs : (0:ℚ) < 2 ^ (max (Int.log 2 q) (-126) - 23) := zpow_pos (by norm_num) _
  have hqe : q < 2 ^ (max (Int.log 2 q) (-126) + 1) := by
    calc q < 2 ^ (Int.log 2 q + 1) := Int.lt_zpow_succ_log_self (by norm_num) q
      _ ≤ 2 ^ (max (Int.log 2 q) (-126) + 1) :=
          zpow_le_zpow_right₀ (by norm_num) (by omega)
  have hpow : (2:ℚ) ^ (max (Int.log 2 q) (-126) + 1)
      = ((2 ^ 24 : ℤ) : ℚ) * 2 ^ (max (Int.log 2 q) (-126) - 23) := by
    rw [show ((2 ^ 24 : ℤ) : ℚ) = (2:ℚ) ^ (24 : ℤ) from by norm_num,
      ← zpow_add₀ (by norm_num : (2:ℚ) ≠ 0)]
    congr 1
    omega
  have hdiv : q / 2 ^ (max (Int.log 2 q) (-126) - 23) < ((2 ^ 24 : ℤ) : ℚ) := by
    rw [div_lt_iff₀ hs]
    calc q < 2 ^ (max (Int.log 2 q) (-126) + 1) := hqe
      _ = ((2 ^ 24 : ℤ) : ℚ) * 2 ^ (max (Int.log 2 q) (-126) - 23) := hpow
  have hfl : ⌊q / 2 ^ (max (Int.log 2 q) (-126) - 23)⌋ < 2 ^ 24 := Int.floor_lt.mpr hdiv
  have hr : rne (q / 2 ^ (max (Int.log 2 q) (-126) - 23)) ≤ 2 ^ 24 := by
    have hub := rne_le_floor_add_one (q / 2 ^ (max (Int.log 2 q) (-126) - 23))
    omega
  unfold floatRound
  rw [if_neg (not_le.mpr hq)]
  calc (rne (q / 2 ^ (max (Int.log 2 q) (-126) - 23)) : ℚ)
        * 2 ^ (max (Int.log 2 q) (-126) - 23)
      ≤ ((2 ^ 24 : ℤ) : ℚ) * 2 ^ (max (Int.log 2 q) (-126) - 23) := by
        apply mul_le_mul_of_nonneg_right _ (le_of_lt hs)
        exact_mod_cast hr
    _ = 2 ^ (max (Int.log 2 q) (-126) + 1) := hpow.symm

lemma zpow_le_floatRound {q : ℚ} (hq : 0 < q) (hlog : -126 ≤ Int.log 2 q) :
    (2:ℚ) ^ (Int.log 2 q) ≤ floatRound q := by
  have hm : max (Int.log 2 q) (-126) = Int.log 2 q := max_eq_left hlog
  have hs : (0:ℚ) < 2 ^ (Int.log 2 q - 23) := zpow_pos (by norm_num) _
  have hqe : (2:ℚ) ^ (Int.log 2 q) ≤ q := Int.zpow_log_le_self (by norm_num) hq
  have hpow : (2:ℚ) ^ (Int.log 2 q)
      = ((2 ^ 23 : ℤ) : ℚ) * 2 ^ (Int.log 2 q - 23) := by
    rw [show ((2 ^ 23 : ℤ) : ℚ) = (2:ℚ) ^ (23 : ℤ) from by norm_num,
      ← zpow_add₀ (by norm_num : (2:ℚ) ≠ 0)]
    congr 1
    omega
  have hdiv : ((2 ^ 23 : ℤ) : ℚ) ≤ q / 2 ^ (Int.log 2 q - 23) := by
    rw [le_div_iff₀ hs]
    calc ((2 ^ 23 : ℤ) : ℚ) * 2 ^ (Int.log 2 q - 23)
        = 2 ^ (Int.log 2 q) := hpow.symm
      _ ≤ q := hqe
  have hfl : (2 ^ 23 : ℤ) ≤ ⌊q / 2 ^ (Int.log 2 q - 23)⌋ := Int.le_floor.mpr hdiv
  have hr : (2 ^ 23 : ℤ) ≤ rne (q / 2 ^ (Int.log 2 q - 23)) := by
    have hge := rne_ge_floor (q / 2 ^ (Int.log 2 q - 23))
    omega
  unfold floatRound
  rw [if_neg (not_le.mpr hq), hm]
  calc (2:ℚ) ^ (Int.log 2 q) = ((2 ^ 23 : ℤ) : ℚ) * 2 ^ (Int.log 2 q - 23) := hpow
    _ ≤ (rne (q / 2 ^ (Int.log 2 q - 23)) : ℚ) * 2 ^ (Int.log 2 q - 23) := by
        apply mul_le_mul_of_nonneg_right _ (le_of_lt hs)
        exact_mod_cast hr

/-- Binary32 rounding is monotone, as IEEE-754 requires. -/
lemma floatRound_mono {x y : ℚ} (h : x ≤ y) : floatRound x ≤ floatRound y := by
  by_cases hx : x ≤ 0
  · rw [floatRound, if_pos hx]
    exact floatRound_nonneg y
  · push_neg at hx
    have hy : (0:ℚ) < y := lt_of_lt_of_le hx h
    have hlog : Int.log 2 x ≤ Int.log 2 y := Int.log_mono_right hx h
    have hee : max (Int.log 2 x) (-126) ≤ max (Int.log 2 y) (-126) :=
      max_le_max hlog (le_refl _)
    rcases eq_or_lt_of_le hee with heq | hlt
    · rw [floatRound, if_neg (not_le.mpr hx), floatRound, if_neg (not_le.mpr hy), ← heq]
      have hs : (0:ℚ) < 2 ^ (max (Int.log 2 x) (-126) - 23) := zpow_pos (by norm_num) _
      apply mul_le_mul_of_nonneg_right _ (le_of_lt hs)
      have hdiv : x / 2 ^ (max (Int.log 2 x) (-126) - 23)
          ≤ y / 2 ^ (max (Int.log 2 x) (-126) - 23) := by
        exact div_le_div_of_nonneg_right h hs.le
      exact_mod_cast rne_mono hdiv
    · have h1 : floatRound x ≤ 2 ^ (max (Int.log 2 x) (-126) + 1) := floatRound_le_zpow hx
      have hy126 : -126 ≤ Int.log 2 y := by
        by_contra hcon
        push_neg at hcon
        have hm : max (Int.log 2 y) (-126) = -126 := max_eq_right (by omega)
        have h126x : -126 ≤ max (Int.log 2 x) (-126) := le_max_right _ _
        omega
      have hey : max (Int.log 2 y) (-126) = Int.log 2 y := max_eq_left hy126
      have h2 : (2:ℚ) ^ (Int.log 2 y) ≤ floatRound y := zpow_le_floatRound hy hy126
      calc floatRound x ≤ 2 ^ (max (Int.log 2 x) (-126) + 1) := h1
        _ ≤ 2 ^ (Int.log 2 y) := zpow_le_zpow_right₀ (by norm_num) (by omega)
        _ ≤ floatRound y := h2

/-- Claim C5 (amended): for at least 2 records, pairwise non-overlapping
ranges that fit the 64-bit address space, and a non-zero span,
`FragmentationIndex` returns the binary32 (round-to-nearest-even)
evaluation of `1 - sum of sizes / span`, and that value lies in the
closed interval `[0, 1]`.  The claimed right-open interval `[0, 1)` is
wrong: the index is exactly 1 when all sizes are 0 (see the
counterexample), and float rounding also returns exactly `1.0f` whenever
the positive ratio is at most `2 ^ (-25)`. -/
theorem c5_fragmentation (l : List Rec) (h2 : 2 ≤ l.length)
    (hno : NonOverlap l) (hb : Bounded l) (hsp : spanOf l ≠ 0) :
    fragmentationIndex l
        = floatRound (1 - floatRound (floatRound (sumSizes l : ℚ)
            / floatRound (spanOf l : ℚ))) ∧
      0 ≤ fragmentationIndex l ∧ fragmentationIndex l ≤ 1 := by
  have hne : l ≠ [] := by
    intro h
    rw [h] at h2
    simp at h2
  have hlast_mem : lastRec l ∈ l := by
    rw [lastRec, List.getLast?_eq_getLast l hne]
    exact List.getLast_mem hne
  have hkey := sumSizes_le_span l hne hno
  have hbl : (lastRec l).1 + (lastRec l).2 < W := hb _ hlast_mem
  have hend : uadd (lastRec l).1 (lastRec l).2 = (lastRec l).1 + (lastRec l).2 :=
    uadd_eq_add hbl
  have hhle : (headRec l).1 ≤ (lastRec l).1 + (lastRec l).2 := by omega
  have hspan : spanOf l = (lastRec l).1 + (lastRec l).2 - (headRec l).1 := by
    rw [spanOf, hend, usub_eq_sub hhle hbl]
  have hsumle : sumSizes l ≤ spanOf l := by omega
  have hsumW : sumSizes l < W := by omega
  have hta : totalAllocated l = sumSizes l := by
    rw [totalAllocated_eq]
    exact Nat.mod_eq_of_lt hsumW
  have heq : fragmentationIndex l
      = floatRound (1 - floatRound (floatRound (sumSizes l : ℚ)
          / floatRound (spanOf l : ℚ))) := by
    rw [fragmentationIndex, if_neg (by omega), if_neg hsp, hta]
  have hsF : (0:ℚ) ≤ floatRound (sumSizes l : ℚ) := floatRound_nonneg _
  have hpF : (1:ℚ) ≤ floatRound (spanOf l : ℚ) := by
    have h1 : (1:ℚ) ≤ (spanOf l : ℚ) := by
      exact_mod_cast Nat.one_le_iff_ne_zero.mpr hsp
    calc (1:ℚ) = floatRound 1 := floatRound_one.symm
      _ ≤ floatRound (spanOf l : ℚ) := floatRound_mono h1
  have hpF0 : (0:ℚ) < floatRound (spanOf l : ℚ) := lt_of_lt_of_le one_pos hpF
  have hsle : floatRound (sumSizes l : ℚ) ≤ floatRound (spanOf l : ℚ) :=
    floatRound_mono (by exact_mod_cast hsumle)
  have hq1 : floatRound (sumSizes l : ℚ) / floatRound (spanOf l : ℚ) ≤ 1 :=
    (div_le_one hpF0).mpr hsle
  have hqf0 : (0:ℚ)
      ≤ floatRound (floatRound (sumSizes l : ℚ) / floatRound (spanOf l : ℚ)) :=
    floatRound_nonneg _
  have hqf1 : floatRound (floatRound (sumSizes l : ℚ) / floatRound (spanOf l : ℚ)) ≤ 1 := by
    calc floatRound (floatRound (sumSizes l : ℚ) / floatRound (spanOf l : ℚ))
        ≤ floatRound 1 := floatRound_mono hq1
      _ = 1 := floatRound_one
  refine ⟨heq, ?_, ?_⟩
  · rw [heq]
    exact floatRound_nonneg _
  · rw [heq]
    calc floatRound (1 - floatRound (floatRound (sumSizes l : ℚ)
            / floatRound (spanOf l : ℚ)))
        ≤ floatRound 1 := floatRound_mono (by linarith)
      _ = 1 := floatRound_one

/-- Claim C5 counterexample: two zero-size records at addresses 100 and
200 form a registry with 2 records, non-overlapping ranges and span 100,
yet the fragmentation index is exactly 1 — outside the claimed `[0, 1)`
(the float computation is exact here: `float(0)/float(100) = 0` and
`1.0f - 0 = 1.0f` involve no rounding). -/
theorem c5_counterexample :
    2 ≤ ([((100:Nat), (0:Nat)), (200, 0)] : List Rec).length ∧
      NonOverlap [((100:Nat), (0:Nat)), (200, 0)] ∧
      spanOf [((100:Nat), (0:Nat)), (200, 0)] ≠ 0 ∧
      fragmentationIndex [((100:Nat), (0:Nat)), (200, 0)] = 1 := by
  refine ⟨by norm_num, ?_, ?_, ?_⟩
  · norm_num [List.chain'_cons]
  · norm_num [spanOf, lastRec, headRec, uadd, usub, W]
  · have hsp : spanOf [((100:Nat), (0:Nat)), (200, 0)] = 100 := by
      norm_num [spanOf, lastRec, headRec, uadd, usub, W]
    have hta : totalAllocated [((100:Nat), (0:Nat)), (200, 0)] = 0 := by
      norm_num [totalAllocated, uadd, W]
    rw [fragmentationIndex, if_neg (by norm_num), if_neg (by rw [hsp]; norm_num), hta]
    rw [show ((0:ℕ):ℚ) = 0 from by norm_num, floatRound_zero, zero_div,
      floatRound_zero, sub_zero, floatRound_one]

/-- Witness for C5 at a registry of two size-10 records. -/
theorem c5_witness :
    spanOf [((100:Nat), (10:Nat)), (200, 10)] ≠ 0 ∧
      (0 ≤ fragmentationIndex [((100:Nat), (10:Nat)), (200, 10)] ∧
        fragmentationIndex [((100:Nat), (10:Nat)), (200, 10)] ≤ 1) :=
  ⟨by decide,
   (c5_fragmentation _ (by decide) (by norm_num [List.chain'_cons])
     (by decide) (by decide)).2⟩

/- ### Conservation (claim C8) -/

lemma insFromRight_perm (a s : Nat) :
    ∀ rl : List Rec, (insFromRight a s rl).Perm ((a, s) :: rl) := by
  intro rl
  induction rl with
  | nil => exact List.Perm.refl _
  | cons r rest ih =>
    by_cases hc : r.1 > a
    · simp only [insFromRight, if_pos hc]
      exact (ih.cons r).trans (List.Perm.swap (a, s) r rest)
    · simp only [insFromRight, if_neg hc]
      exact List.Perm.refl _

lemma arrayInsert_perm (a s : Nat) (l : List Rec) :
    (arrayInsert a s l).Perm ((a, s) :: l) :=
  ((List.reverse_perm _).trans (insFromRight_perm a s l.reverse)).trans
    ((List.reverse_perm l).cons (a, s))

lemma llInsertAfter_perm (a s : Nat) :
    ∀ l : List Rec, (llInsertAfter a s l).Perm ((a, s) :: l) := by
  intro l
  induction l with
  | nil => exact List.Perm.refl _
  | cons r rest ih =>
    by_cases hc : r.1 < a
    · simp only [llInsertAfter, if_pos hc]
      exact (ih.cons r).trans (List.Perm.swap (a, s) r rest)
    · simp only [llInsertAfter, if_neg hc]
      exact List.Perm.refl _

lemma llInsert_perm (a s : Nat) (l : List Rec) :
    (llInsert a s l).Perm ((a, s) :: l) := by
  cases l with
  | nil => exact List.Perm.refl _
  | cons r rest =>
    by_cases hc : r.1 > a
    · simp only [llInsert, if_pos hc]
      exact List.Perm.refl _
    · simp only [llInsert, if_neg hc]
      exact ((llInsertAfter_perm a s rest).cons r).trans (List.Perm.swap (a, s) r rest)

/-- With pairwise distinct addresses, removing the first match is the same
as filtering the address out. -/
lemma removeFirst_eq_filter (p : Nat) :
    ∀ l : List Rec, (addrsOf l).Nodup →
      removeFirst p l = l.filter fun r => r.1 != p := by
  intro l
  induction l with
  | nil =>
    intro _
    rfl
  | cons r rest ih =>
    intro hnd
    have hnd' : r.1 ∉ addrsOf rest ∧ (addrsOf rest).Nodup := by
      simpa [addrsOf, List.nodup_cons] using hnd
    by_cases h : r.1 = p
    · have hfilter : rest.filter (fun r => r.1 != p) = rest := by
        rw [List.filter_eq_self]
        intro x hx
        rw [bne_iff_ne]
        intro hxp
        exact hnd'.1 (by rw [h, ← hxp]; exact List.mem_map_of_mem Prod.fst hx)
      have hpred : ((r.1 != p) = false) := by simp [h]
      simp only [removeFirst, if_pos h, List.filter_cons, hpred, Bool.false_eq_true,
        if_false, hfilter]
    · have hpred : ((r.1 != p) = true) := bne_iff_ne.mpr h
      simp only [removeFirst, if_neg h, List.filter_cons, hpred, if_true]
      rw [ih hnd'.2]

lemma removeFirst_perm {l l' : List Rec} (p : Nat)
    (h : l.Perm l') (hnd : (addrsOf l').Nodup) :
    (removeFirst p l).Perm (removeFirst p l') := by
  have hnd0 : (addrsOf l).Nodup := ((h.map Prod.fst).nodup_iff).mpr hnd
  rw [removeFirst_eq_filter p l hnd0, removeFirst_eq_filter p l' hnd]
  exact h.filter _

lemma sumSizes_perm {l l' : List Rec} (h : l.Perm l') : sumSizes l = sumSizes l' :=
  (h.map Prod.snd).sum_eq

/-- The array variant's registry is, up to order, the capped
specification-level live list, and the latter keeps distinct addresses. -/
lemma cppSpec_aux :
    ∀ (ops : List Op) (l l' : List Rec), l.Perm l' → (addrsOf l').Nodup →
      cppValidFrom l ops = true →
      (cppRunFrom l ops).Perm (specRunFromC l' ops) ∧
        (addrsOf (specRunFromC l' ops)).Nodup := by
  intro ops
  induction ops with
  | nil =>
    intro l l' h hnd _
    exact ⟨h, hnd⟩
  | cons op rest ih =>
    intro l l' h hnd hv
    cases op with
    | malloc a s =>
      simp only [cppValidFrom, Bool.and_eq_true] at hv
      obtain ⟨hfb, hvrest⟩ := hv
      have hfl : a ∉ addrsOf l := not_mem_addrs.mpr (freshB_iff.mp hfb)
      have hfl' : a ∉ addrsOf l' := fun hmem => hfl ((h.map Prod.fst).mem_iff.mpr hmem)
      have hlen := h.length_eq
      have hstep : (cppStep l (Op.malloc a s)).Perm (specStepC l' (Op.malloc a s)) := by
        simp only [cppStep, specStepC, cppCmallocTrack]
        by_cases hcap : l.length < MAX_RECORDS
        · rw [if_pos hcap, if_pos (by rw [← hlen]; exact hcap)]
          exact (arrayInsert_perm a s l).trans (h.cons (a, s))
        · rw [if_neg hcap, if_neg (by rw [← hlen]; exact hcap)]
          exact h
      have hnd' : (addrsOf (specStepC l' (Op.malloc a s))).Nodup := by
        simp only [specStepC]
        by_cases hcap' : l'.length < MAX_RECORDS
        · rw [if_pos hcap']
          rw [show addrsOf ((a, s) :: l') = a :: addrsOf l' from rfl, List.nodup_cons]
          exact ⟨hfl', hnd⟩
        · rw [if_neg hcap']
          exact hnd
      exact ih _ _ hstep hnd' hvrest
    | free p =>
      simp only [cppValidFrom] at hv
      have hstep : (cppStep l (Op.free p)).Perm (specStepC l' (Op.free p)) :=
        removeFirst_perm p h hnd
      have hnd' : (addrsOf (specStepC l' (Op.free p))).Nodup :=
        hnd.sublist ((removeFirst_sublist p l').map Prod.fst)
      exact ih _ _ hstep hnd' hv

/-- The linked-list variant's registry is, up to order, the uncapped
specification-level live list. -/
lemma hppSpec_aux :
    ∀ (ops : List Op) (st : Registry) (l' : List Rec),
      st.records.Perm l' → (addrsOf l').Nodup → hppValidFrom st ops = true →
      ((hppRunFrom st ops).records).Perm (specRunFromH l' ops) ∧
        (addrsOf (specRunFromH l' ops)).Nodup := by
  intro ops
  induction ops with
  | nil =>
    intro st l' h hnd _
    exact ⟨h, hnd⟩
  | cons op rest ih =>
    intro st l' h hnd hv
    cases op with
    | malloc a s =>
      simp only [hppValidFrom, Bool.and_eq_true] at hv
      obtain ⟨hfb, hvrest⟩ := hv
      have hfl : a ∉ addrsOf st.records := not_mem_addrs.mpr (freshB_iff.mp hfb)
      have hfl' : a ∉ addrsOf l' := fun hmem => hfl ((h.map Prod.fst).mem_iff.mpr hmem)
      have hstep : ((hppStep st (Op.malloc a s)).records).Perm
          (specStepH l' (Op.malloc a s)) := by
        simp only [hppStep, hppCmallocTrack, specStepH]
        exact (llInsert_perm a s st.records).trans (h.cons (a, s))
      have hnd' : (addrsOf (specStepH l' (Op.malloc a s))).Nodup := by
        simp only [specStepH]
        rw [show addrsOf ((a, s) :: l') = a :: addrsOf l' from rfl, List.nodup_cons]
        exact ⟨hfl', hnd⟩
      exact ih _ _ hstep hnd' hvrest
    | free p =>
      simp only [hppValidFrom] at hv
      have hstep : ((hppStep st (Op.free p)).records).Perm (specStepH l' (Op.free p)) :=
        removeFirst_perm p h hnd
      have hnd' : (addrsOf (specStepH l' (Op.free p))).Nodup :=
        hnd.sublist ((removeFirst_sublist p l').map Prod.fst)
      exact ih _ _ hstep hnd' hv

/-- Claim C8 (amended): under the spec's precondition that every tracked
allocation uses a fresh address, `TotalAllocated` equals the sum of the
sizes passed to insert for the records not yet removed — modulo `2 ^ 64`,
because the accumulator is a `size_t`; the sum is exact whenever the true
total fits in 64 bits.  The operation itself is a pure scan (its model is
a function of the registry only). -/
theorem c8_conservation (ops : List Op)
    (hc : cppValidFrom [] ops = true) (hh : hppValidFrom hppInit ops = true) :
    totalAllocated (cppRun ops) = sumSizes (specRunC ops) % W ∧
      (sumSizes (specRunC ops) < W →
        totalAllocated (cppRun ops) = sumSizes (specRunC ops)) ∧
      totalAllocated (hppRun ops).records = sumSizes (specRunH ops) % W ∧
      (sumSizes (specRunH ops) < W →
        totalAllocated (hppRun ops).records = sumSizes (specRunH ops)) := by
  have hcperm : (cppRun ops).Perm (specRunC ops) :=
    (cppSpec_aux ops [] [] (List.Perm.refl _) (by simp [addrsOf]) hc).1
  have hhperm : (hppRun ops).records.Perm (specRunH ops) :=
    (hppSpec_aux ops hppInit [] (List.Perm.refl _) (by simp [addrsOf]) hh).1
  have h1 : totalAllocated (cppRun ops) = sumSizes (specRunC ops) % W := by
    rw [totalAllocated_eq, sumSizes_perm hcperm]
  have h2 : totalAllocated (hppRun ops).records = sumSizes (specRunH ops) % W := by
    rw [totalAllocated_eq, sumSizes_perm hhperm]
  exact ⟨h1, fun hw => by rw [h1, Nat.mod_eq_of_lt hw], h2,
    fun hw => by rw [h2, Nat.mod_eq_of_lt hw]⟩

/-- Claim C8 counterexample: two tracked allocations of size `2 ^ 63` at
the distinct addresses 0 and 1 (as produced when malloc fails and returns
null, yet is still tracked) form a valid sequence, but `TotalAllocated`
accumulates in `size_t` and returns 0 instead of the exact sum `2 ^ 64`. -/
theorem c8_counterexample :
    cppValidFrom [] [Op.malloc 0 (2 ^ 63), Op.malloc 1 (2 ^ 63)] = true ∧
      sumSizes (specRunC [Op.malloc 0 (2 ^ 63), Op.malloc 1 (2 ^ 63)]) = 2 ^ 64 ∧
      totalAllocated (cppRun [Op.malloc 0 (2 ^ 63), Op.malloc 1 (2 ^ 63)]) = 0 :=
  ⟨by decide, by decide, by decide⟩

/-- Witness for C8 on a concrete valid sequence whose live total fits. -/
theorem c8_witness :
    cppValidFrom [] [Op.malloc 10 3, Op.malloc 2 5, Op.free 10] = true ∧
      hppValidFrom hppInit [Op.malloc 10 3, Op.malloc 2 5, Op.free 10] = true ∧
      totalAllocated (cppRun [Op.malloc 10 3, Op.malloc 2 5, Op.free 10])
          = sumSizes (specRunC [Op.malloc 10 3, Op.malloc 2 5, Op.free 10]) ∧
      totalAllocated (hppRun [Op.malloc 10 3, Op.malloc 2 5, Op.free 10]).records
          = sumSizes (specRunH [Op.malloc 10 3, Op.malloc 2 5, Op.free 10]) :=
  ⟨by decide, by decide,
   (c8_conservation _ (by decide) (by decide)).2.1 (by decide),
   (c8_conservation _ (by decide) (by decide)).2.2.2 (by decide)⟩

/-- Witness for C9 at concrete inputs. -/
theorem c9_witness :
    (trackedAllocate true [(1, 2)] 5 7).1 = 5 ∧
      (trackedAllocate true [(1, 2)] 5 7).2.2 = [(1, 2)] ∧
      (trackedAllocate false [(1, 2)] 5 7).2.1 = false :=
  ⟨(c9_trackedAllocate true [(1, 2)] 5 7).1,
   ((c9_trackedAllocate true [(1, 2)] 5 7).2.1 rfl).1,
   ((c9_trackedAllocate false [(1, 2)] 5 7).2.2 rfl).1⟩

end CTracker
